import Mathlib

set_option maxHeartbeats 1000000

/-!
Verification of the freee-api-export pipeline against its specification.

The Python sources are shallowly embedded as follows: the JSON
dictionaries that the code consumes become structures with Option fields
(a missing key is none, and every dict.get default of the source becomes
Option.getD), the dict returned by create_project_lookup becomes an
association list, a Python exception becomes an Except error value, and
the paginated fetch loop becomes a fuel-indexed recursion that in
addition records the list of requested offsets so that claims about the
number of network calls can be stated.  Network and AWS effects are
injected as function arguments.
-/

/-- One element of a project record's project_tags list
(process_workloads_to_csv.py, accessed with p_tag.get). -/
structure ProjectTag where
  tag_group_name : Option String
  tag_name : Option String
deriving DecidableEq

/-- A project record as consumed by create_project_lookup and
process_workloads_to_csv_data; only the keys the code reads are kept. -/
structure Project where
  id : Option Nat
  name : Option String
  code : Option String
  project_tags : Option (List ProjectTag)
deriving DecidableEq

/-- One element of a workload record's workload_tags list. -/
structure WorkloadTag where
  tag_group_name : Option String
  tag_name : Option String
deriving DecidableEq

/-- A workload record as consumed by process_workloads_to_csv_data;
only the keys the code reads are kept. -/
structure Workload where
  person_name : Option String
  project_id : Option Nat
  memo : Option String
  minutes : Option Nat
  workload_tags : Option (List WorkloadTag)
deriving DecidableEq

/-- The project_lookup dict, as an association list from project id to
project record. -/
abbrev Lookup := List (Nat × Project)

/-- Python dict assignment d[i] = p: overwrite in place when the key is
present, append otherwise. -/
def setProj : Lookup → Nat → Project → Lookup
  | [], i, p => [(i, p)]
  | (j, q) :: rest, i, p =>
    if j = i then (i, p) :: rest else (j, q) :: setProj rest i p

/-- Embeds create_project_lookup (process_workloads_to_csv.py lines
4-11).  The source indexes project["id"] directly, so a record without
an id raises a KeyError; that exception is the Except.error case. -/
def create_project_lookup_go (d : Lookup) : List Project → Except String Lookup
  | [] => Except.ok d
  | p :: ps =>
    match p.id with
    | some i => create_project_lookup_go (setProj d i p) ps
    | none => Except.error "KeyError: id"

def create_project_lookup (ps : List Project) : Except String Lookup :=
  create_project_lookup_go [] ps

/-- Python dict get on the association list (first match; keys built by
create_project_lookup are unique). -/
def assocGet (d : Lookup) (i : Nat) : Option Project :=
  (d.find? (fun e => e.1 == i)).map (·.2)

/-- project_lookup_dict.get(project_id), where project_id itself may be
missing (None is never a key of the lookup). -/
def dictGet (d : Lookup) : Option Nat → Option Project
  | some i => assocGet d i
  | none => none

/-- The loop over project_tags (lines 45-56): the first tag whose
tag_name is 社内 or 社外 sets both internal_external and
project_tag_name to that tag name and stops the scan. -/
def scanProjectTags : List ProjectTag → String × String
  | [] => ("", "")
  | t :: ts =>
    if t.tag_name = some "社内" then ("社内", "社内")
    else if t.tag_name = some "社外" then ("社外", "社外")
    else scanProjectTags ts

/-- Resolution of a workload's project fields (lines 33-57): absent
project gives four empty strings; the project_tags scan only runs when
the list is present and non-empty (Python truthiness). -/
def projFields (d : Lookup) (pid : Option Nat) : String × String × String × String :=
  match dictGet d pid with
  | none => ("", "", "", "")
  | some p =>
    let ie :=
      match p.project_tags with
      | some (t :: ts) => scanProjectTags (t :: ts)
      | _ => ("", "")
    (p.name.getD "", p.code.getD "", ie.1, ie.2)

/-- One element of csv_rows_raw (lines 66-89). -/
structure RawRow where
  person_name : String
  internal_external : String
  project_name : String
  project_code : String
  workload_tag_group_name : String
  workload_tag_name : String
  project_tag_name : String
  memo : String
  minutes : Nat
deriving DecidableEq

/-- The workload_tags value used by the truthiness test on line 60
(missing key gives None, which is falsy, like the empty list). -/
def truthyTags (wl : Workload) : List WorkloadTag :=
  match wl.workload_tags with
  | some l => l
  | none => []

/-- The Explode stage for one workload entry (lines 27-89): one raw row
per workload tag when the list is non-empty, else a single row with
empty tag fields. -/
def explodeWorkload (d : Lookup) (wl : Workload) : List RawRow :=
  let pf := projFields d wl.project_id
  match truthyTags wl with
  | [] =>
    [{ person_name := wl.person_name.getD "", internal_external := pf.2.2.1,
       project_name := pf.1, project_code := pf.2.1,
       workload_tag_group_name := "", workload_tag_name := "",
       project_tag_name := pf.2.2.2, memo := wl.memo.getD "",
       minutes := wl.minutes.getD 0 }]
  | t :: ts =>
    (t :: ts).map fun wt =>
      { person_name := wl.person_name.getD "", internal_external := pf.2.2.1,
        project_name := pf.1, project_code := pf.2.1,
        workload_tag_group_name := wt.tag_group_name.getD "",
        workload_tag_name := wt.tag_name.getD "",
        project_tag_name := pf.2.2.2, memo := wl.memo.getD "",
        minutes := wl.minutes.getD 0 }

/-- csv_rows_raw for the whole input list, in order. -/
def explodeAll (wls : List Workload) (d : Lookup) : List RawRow :=
  (wls.map (explodeWorkload d)).flatten

/-- The aggregation key (lines 96-100). -/
abbrev AggKey := String × String × String

def keyOf (r : RawRow) : AggKey :=
  (r.person_name, r.project_name, r.workload_tag_name)

/-- The memos appended for one raw row: line 102 only appends a truthy
(non-empty) memo. -/
def memoPart (r : RawRow) : List String :=
  if r.memo = "" then [] else [r.memo]

/-- The value stored in aggregated_data for one key: running minutes
total, collected memos, and the first-seen raw row of the group. -/
structure GroupData where
  minutes : Nat
  memos : List String
  firstRow : RawRow
deriving DecidableEq

/-- Processing one raw row into aggregated_data (lines 95-107).  The
defaultdict keeps keys in first-insertion order, hence the association
list: an absent key appends a fresh group at the end, a present key
updates the matching entry in place and never touches firstRow. -/
def updateAgg : List (AggKey × GroupData) → RawRow → List (AggKey × GroupData)
  | [], r => [(keyOf r, ⟨r.minutes, memoPart r, r⟩)]
  | (k, g) :: rest, r =>
    if k = keyOf r then
      (k, ⟨g.minutes + r.minutes, g.memos ++ memoPart r, g.firstRow⟩) :: rest
    else (k, g) :: updateAgg rest r

/-- aggregated_data after the whole reduce loop. -/
def aggregate (rows : List RawRow) : List (AggKey × GroupData) :=
  rows.foldl updateAgg []

/-- Lexicographic comparison of character lists by code point, the
order Python uses to compare strings. -/
def listLe : List Char → List Char → Bool
  | [], _ => true
  | _ :: _, [] => false
  | a :: as, b :: bs =>
    if a.val < b.val then true
    else if b.val < a.val then false
    else listLe as bs

/-- String comparison by code points. -/
def strLe (a b : String) : Bool :=
  listLe a.data b.data

/-- Insertion of one string into a sorted list. -/
def insertSorted (s : String) : List String → List String
  | [] => [s]
  | t :: ts => if strLe s t then s :: t :: ts else t :: insertSorted s ts

/-- Insertion sort on strings. -/
def sortStrings : List String → List String
  | [] => []
  | s :: ss => insertSorted s (sortStrings ss)

/-- Python sorted(set(l)): the distinct elements in sorted order. -/
def sortedSet (l : List String) : List String :=
  sortStrings l.dedup

/-- Python round(minutes / 60, 2) modelled over exact rationals:
round half to even on minutes * 100 / 60.  A tie would need
(minutes * 100) % 60 = 30, impossible because 100 * m mod 60 is always
a multiple of 20, so this also agrees with round half away from zero. -/
def roundHalfEven (num den : Nat) : Nat :=
  let q := num / den
  let r := num % den
  if 2 * r < den then q
  else if den < 2 * r then q + 1
  else if q % 2 = 0 then q else q + 1

def total_hours_of (m : Nat) : ℚ :=
  mkRat (roundHalfEven (m * 100) 60) 100

/-- One element of final_csv_data (lines 116-125); field names keep the
order of the 8-column schema. -/
structure FinalRow where
  person_name : String
  internal_external : String
  project_name : String
  workload_tag_name : String
  project_tag_name : String
  memo : String
  total_minutes : Nat
  total_hours : ℚ
deriving DecidableEq

/-- Formatting of one aggregated group (lines 111-125). -/
def finalizeGroup (p : AggKey × GroupData) : FinalRow :=
  { person_name := p.2.firstRow.person_name,
    internal_external := p.2.firstRow.internal_external,
    project_name := p.2.firstRow.project_name,
    workload_tag_name := p.2.firstRow.workload_tag_name,
    project_tag_name := p.2.firstRow.project_tag_name,
    memo := String.intercalate ", " (sortedSet p.2.memos),
    total_minutes := p.2.minutes,
    total_hours := total_hours_of p.2.minutes }

/-- Embeds process_workloads_to_csv_data (lines 13-127): explode each
workload entry, reduce by aggregation key, format each group. -/
def process_workloads_to_csv_data (wls : List Workload) (d : Lookup) : List FinalRow :=
  (aggregate (explodeAll wls d)).map finalizeGroup

/-- Whether an Except value is a success. -/
def exceptIsOk {ε α : Type} : Except ε α → Bool
  | Except.ok _ => true
  | Except.error _ => false

/-!  Pagination: get_all_freee_workloads (get_workloads.py lines 18-86)
and get_all_freee_projects (get_projects.py lines 18-81) run the same
loop, differing only in URL and query parameters, which are abstracted
into the api argument mapping an offset to the response page.  The
embedding returns the accumulated records together with the list of
offsets actually requested, so that the number of network calls can be
stated; the fuel argument bounds the recursion and exhausting it yields
none (the Python loop has no such bound, so none never corresponds to a
Python result; the termination theorem shows enough fuel always
exists).  The early-return guards for a missing access token, company
id or year month are outside the loop and are not modelled. -/

/-- One API response: the records list (data.get of the resource key,
default empty) and meta.total_count (default 0). -/
structure Page (α : Type) where
  records : List α
  totalCount : Nat
deriving DecidableEq

/-- Iterations after the first: extend the accumulator with the page at
the current offset, advance the offset by the number of records
actually returned, and stop when the page is shorter than the requested
limit or the advanced offset reaches total_count.  The returned list of
records is the concatenation of the fetched pages and the returned
offsets are the ones requested. -/
def fetchRest {α : Type} (api : Nat → Page α) (limit tc : Nat) :
    Nat → Nat → Option (List α × List Nat)
  | 0, _ => none
  | fuel + 1, offset =>
    let page := (api offset).records
    if page.length < limit ∨ tc ≤ offset + page.length then
      some (page, [offset])
    else
      match fetchRest api limit tc fuel (offset + page.length) with
      | none => none
      | some (recs, offs) => some (page ++ recs, offset :: offs)

/-- The whole loop: the first request is at offset 0 and captures
total_count from the response metadata; when total_count is 0 the
function returns the empty list at once (its records, if any, are
discarded), otherwise the first page is accumulated and the loop
continues as in fetchRest. -/
def fetchAllPaginated {α : Type} (api : Nat → Page α) (limit fuel : Nat) :
    Option (List α × List Nat) :=
  let p0 := api 0
  let tc := p0.totalCount
  if tc = 0 then some ([], [0])
  else if p0.records.length < limit ∨ tc ≤ p0.records.length then
    some (p0.records, [0])
  else
    match fetchRest api limit tc fuel p0.records.length with
    | none => none
    | some (recs, offs) => some (p0.records ++ recs, 0 :: offs)

/-!  call_freee_api (lambda_function.py lines 90-159).  The two network
effects are injected: doRequest sends the wrapped request with a bearer
token and doRefresh models refresh_access_token, returning the new
access and refresh tokens on success and none when the refresh POST
failed (that function catches its RequestException and returns None).
The returned trace counts the wrapped requests sent and the refresh
attempts made, so that retry-exactly-once claims can be stated. -/

/-- Outcome of one wrapped HTTP request: a JSON body, an HTTPError
raised by raise_for_status with its status code, or another
RequestException with no response. -/
inductive ReqOutcome where
  | ok (body : String)
  | httpError (status : Nat) (body : String)
  | reqError
deriving DecidableEq

/-- The exception call_freee_api lets escape. -/
inductive CallError where
  | http (status : Nat)
  | request
  | refreshFailedPrecheck
  | noRefreshToken
deriving DecidableEq

/-- Effect counters for one call_freee_api run. -/
structure CallTrace where
  requests : Nat
  refreshes : Nat
deriving DecidableEq

/-- Python truthiness of an optional string. -/
def truthy : Option String → Bool
  | some s => s != ""
  | none => false

/-- Embeds call_freee_api.  Lines 99-106: when the access token is
missing or stale, refresh first (raising when there is no refresh token
or the refresh fails).  Lines 123-159: send the request; on an
HTTPError with status 401 and a truthy refresh token, refresh once and
resend exactly once, letting any error of the second attempt escape;
when that refresh fails, re-raise the original HTTPError; every other
error is re-raised directly. -/
def call_freee_api (accessToken refreshToken : Option String)
    (expiresAt now : Nat) (doRequest : String → ReqOutcome)
    (doRefresh : String → Option (String × String)) :
    Except CallError String × CallTrace :=
  let pre : Except CallError (String × Option String × Nat) :=
    if accessToken = none ∨ (0 < expiresAt ∧ now ≥ expiresAt) then
      if truthy refreshToken then
        match doRefresh (refreshToken.getD "") with
        | some (na, nr) => Except.ok (na, some nr, 1)
        | none => Except.error CallError.refreshFailedPrecheck
      else Except.error CallError.noRefreshToken
    else Except.ok (accessToken.getD "", refreshToken, 0)
  match pre with
  | Except.error e =>
    (Except.error e, ⟨0, if e = CallError.refreshFailedPrecheck then 1 else 0⟩)
  | Except.ok (tok, rtok, rc) =>
    match doRequest tok with
    | ReqOutcome.ok body => (Except.ok body, ⟨1, rc⟩)
    | ReqOutcome.httpError status _ =>
      if status = 401 ∧ truthy rtok then
        match doRefresh (rtok.getD "") with
        | some (na, _) =>
          match doRequest na with
          | ReqOutcome.ok body2 => (Except.ok body2, ⟨2, rc + 1⟩)
          | ReqOutcome.httpError s2 _ => (Except.error (CallError.http s2), ⟨2, rc + 1⟩)
          | ReqOutcome.reqError => (Except.error CallError.request, ⟨2, rc + 1⟩)
        | none => (Except.error (CallError.http status), ⟨1, rc + 1⟩)
      else (Except.error (CallError.http status), ⟨1, rc⟩)
    | ReqOutcome.reqError => (Except.error CallError.request, ⟨1, rc⟩)

/-!  refresh_freee_tokens_with_secrets_manager (get_tokens.py lines
9-76).  The three effects are injected as outcomes: reading the secret
(none when get_secret_value or json.loads raised), posting to the token
endpoint, and writing the secret back (false when put_secret_value
raised, an exception that is not a RequestException and so falls into
the generic handler on line 74). -/

/-- The token endpoint response body, as read with tokens.get. -/
structure TokenResponse where
  access_token : Option String
  refresh_token : Option String
deriving DecidableEq

/-- Outcome of the POST to the token endpoint: a parsed body, a
RequestException (line 68), or some other exception raised while
processing the response (line 74). -/
inductive PostOutcome where
  | ok (tokens : TokenResponse)
  | requestError
  | otherError
deriving DecidableEq

/-- What the Python function returns: the tuple paths return a pair of
optional tokens, the generic exception handler on line 76 returns a
bare None that is not a pair. -/
inductive RefreshResult where
  | pair (a r : Option String)
  | bareNone
deriving DecidableEq

/-- The fields of the stored secret the function reads. -/
structure SecretData where
  refresh_token : Option String
deriving DecidableEq

/-- Embeds refresh_freee_tokens_with_secrets_manager: secret-read
failure, a falsy stored refresh token, a RequestException from the
POST, and a response without both new tokens all return the pair
(None, None); success returns the new pair; any other exception while
processing the response, including a failing put_secret_value, returns
a bare None. -/
def refresh_freee_tokens_with_secrets_manager (readSecret : Option SecretData)
    (postToken : PostOutcome) (putSecretOk : Bool) : RefreshResult :=
  match readSecret with
  | none => RefreshResult.pair none none
  | some secret =>
    if truthy secret.refresh_token = false then RefreshResult.pair none none
    else
      match postToken with
      | PostOutcome.requestError => RefreshResult.pair none none
      | PostOutcome.otherError => RefreshResult.bareNone
      | PostOutcome.ok tokens =>
        if truthy tokens.access_token ∧ truthy tokens.refresh_token then
          if putSecretOk then RefreshResult.pair tokens.access_token tokens.refresh_token
          else RefreshResult.bareNone
        else RefreshResult.pair none none

/-!  Helper lemmas about the Explode stage. -/

/-- Fields shared by all raw rows emitted for one workload entry. -/
theorem explodeWorkload_mem (d : Lookup) (wl : Workload) (r : RawRow)
    (hr : r ∈ explodeWorkload d wl) :
    r.person_name = wl.person_name.getD "" ∧
    r.internal_external = (projFields d wl.project_id).2.2.1 ∧
    r.project_name = (projFields d wl.project_id).1 ∧
    r.project_code = (projFields d wl.project_id).2.1 ∧
    r.project_tag_name = (projFields d wl.project_id).2.2.2 ∧
    r.memo = wl.memo.getD "" ∧
    r.minutes = wl.minutes.getD 0 := by
  unfold explodeWorkload at hr
  cases h : truthyTags wl with
  | nil =>
    rw [h] at hr
    simp only [List.mem_singleton] at hr
    subst hr
    simp
  | cons t ts =>
    rw [h] at hr
    simp only [List.mem_map] at hr
    obtain ⟨wt, _, he⟩ := hr
    subst he
    simp

/-- The Explode stage emits one row per tag, and one row when there is
no tag. -/
theorem explodeWorkload_length (d : Lookup) (wl : Workload) :
    (explodeWorkload d wl).length = max 1 (truthyTags wl).length := by
  unfold explodeWorkload
  cases h : truthyTags wl with
  | nil => simp
  | cons t ts => simp [Nat.max_eq_right, Nat.succ_le_succ]

/-- The zero-tag case in full. -/
theorem explodeWorkload_nil (d : Lookup) (wl : Workload)
    (h : truthyTags wl = []) :
    explodeWorkload d wl =
      [{ person_name := wl.person_name.getD "",
         internal_external := (projFields d wl.project_id).2.2.1,
         project_name := (projFields d wl.project_id).1,
         project_code := (projFields d wl.project_id).2.1,
         workload_tag_group_name := "", workload_tag_name := "",
         project_tag_name := (projFields d wl.project_id).2.2.2,
         memo := wl.memo.getD "", minutes := wl.minutes.getD 0 }] := by
  unfold explodeWorkload
  rw [h]

/-!  Helper lemmas about the Reduce stage. -/

def sumMinutesAgg (agg : List (AggKey × GroupData)) : Nat :=
  (agg.map (fun p => p.2.minutes)).sum

def sumMinutesRaw (rows : List RawRow) : Nat :=
  (rows.map (·.minutes)).sum

/-- The minutes total over all groups grows by exactly the minutes of
the row fed to the reduce step. -/
theorem sumMinutesAgg_updateAgg (acc : List (AggKey × GroupData)) (r : RawRow) :
    sumMinutesAgg (updateAgg acc r) = sumMinutesAgg acc + r.minutes := by
  induction acc with
  | nil => simp [updateAgg, sumMinutesAgg]
  | cons p rest ih =>
    obtain ⟨k, g⟩ := p
    by_cases h : k = keyOf r
    · simp only [updateAgg, if_pos h, sumMinutesAgg, List.map_cons, List.sum_cons] at *
      omega
    · simp only [updateAgg, if_neg h, sumMinutesAgg, List.map_cons, List.sum_cons] at *
      omega

theorem sumMinutesAgg_foldl (rows : List RawRow) :
    ∀ acc, sumMinutesAgg (rows.foldl updateAgg acc) =
      sumMinutesAgg acc + sumMinutesRaw rows := by
  induction rows with
  | nil => intro acc; simp [sumMinutesRaw]
  | cons r rest ih =>
    intro acc
    rw [List.foldl_cons, ih, sumMinutesAgg_updateAgg]
    simp [sumMinutesRaw]
    omega

/-- Minutes are conserved by aggregation. -/
theorem sumMinutesAgg_aggregate (rows : List RawRow) :
    sumMinutesAgg (aggregate rows) = sumMinutesRaw rows := by
  have := sumMinutesAgg_foldl rows []
  simpa [aggregate, sumMinutesAgg] using this

theorem length_updateAgg (acc : List (AggKey × GroupData)) (r : RawRow) :
    acc.length ≤ (updateAgg acc r).length := by
  induction acc with
  | nil => simp [updateAgg]
  | cons p rest ih =>
    obtain ⟨k, g⟩ := p
    by_cases h : k = keyOf r
    · simp [updateAgg, h]
    · simp [updateAgg, h]
      omega

theorem length_foldl_updateAgg (rows : List RawRow) :
    ∀ acc, acc.length ≤ (rows.foldl updateAgg acc).length := by
  induction rows with
  | nil => intro acc; simp
  | cons r rest ih =>
    intro acc
    exact le_trans (length_updateAgg acc r) (ih (updateAgg acc r))

/-- A non-empty raw-row list aggregates to a non-empty group list. -/
theorem aggregate_ne_nil (rows : List RawRow) (h : rows ≠ []) :
    aggregate rows ≠ [] := by
  obtain ⟨r, rest, rfl⟩ := List.exists_cons_of_ne_nil h
  have h1 : (1 : Nat) ≤ (aggregate (r :: rest)).length := by
    have := length_foldl_updateAgg rest (updateAgg [] r)
    simpa [aggregate, updateAgg] using this
  intro hnil
  rw [hnil] at h1
  simp at h1

/-- Minutes collected for one key over a raw-row list. -/
def groupMinutes (rows : List RawRow) (k : AggKey) : Nat :=
  ((rows.filter (fun r => keyOf r == k)).map (·.minutes)).sum

/-- Memos collected for one key over a raw-row list, in row order,
empty memos skipped. -/
def groupMemos (rows : List RawRow) (k : AggKey) : List String :=
  ((rows.filter (fun r => keyOf r == k)).map memoPart).flatten

/-- The reduce-loop invariant: every group of the accumulator carries
the first-seen row of its key, the key's minutes total and the key's
collected memos; keys are distinct; and every processed row has a
group. -/
def AggOk (rows : List RawRow) (agg : List (AggKey × GroupData)) : Prop :=
  (∀ p ∈ agg,
      rows.find? (fun r => keyOf r == p.1) = some p.2.firstRow ∧
      p.2.minutes = groupMinutes rows p.1 ∧
      p.2.memos = groupMemos rows p.1) ∧
  (agg.map Prod.fst).Nodup ∧
  ∀ r ∈ rows, ∃ g, (keyOf r, g) ∈ agg

theorem updateAgg_not_mem (acc : List (AggKey × GroupData)) (r : RawRow)
    (h : keyOf r ∉ acc.map Prod.fst) :
    updateAgg acc r = acc ++ [(keyOf r, ⟨r.minutes, memoPart r, r⟩)] := by
  induction acc with
  | nil => simp [updateAgg]
  | cons p rest ih =>
    obtain ⟨k, g⟩ := p
    simp only [List.map_cons, List.mem_cons, not_or] at h
    have hk : ¬ k = keyOf r := fun he => h.1 he.symm
    simp [updateAgg, hk, ih h.2]

theorem updateAgg_mem_decomp (pre post : List (AggKey × GroupData))
    (g : GroupData) (r : RawRow) (h : keyOf r ∉ pre.map Prod.fst) :
    updateAgg (pre ++ (keyOf r, g) :: post) r =
      pre ++ (keyOf r, ⟨g.minutes + r.minutes, g.memos ++ memoPart r, g.firstRow⟩) :: post := by
  induction pre with
  | nil => simp [updateAgg]
  | cons p prest ih =>
    obtain ⟨k, g0⟩ := p
    simp only [List.map_cons, List.mem_cons, not_or] at h
    have hk : ¬ k = keyOf r := fun he => h.1 he.symm
    simp [updateAgg, hk, ih h.2]

theorem aggOk_step (rows : List RawRow) (acc : List (AggKey × GroupData))
    (r : RawRow) (H : AggOk rows acc) :
    AggOk (rows ++ [r]) (updateAgg acc r) := by
  obtain ⟨H1, H2, H3⟩ := H
  by_cases hk : keyOf r ∈ acc.map Prod.fst
  · -- the key already has a group: the matching entry is updated in place
    obtain ⟨p0, hp0mem, hp0fst⟩ := List.mem_map.mp hk
    obtain ⟨k0, g0⟩ := p0
    have hkey : k0 = keyOf r := hp0fst
    subst hkey
    obtain ⟨pre, post, hacc⟩ := List.append_of_mem hp0mem
    subst hacc
    have hnodup := H2
    rw [List.map_append, List.map_cons] at hnodup
    rw [List.nodup_middle] at hnodup
    have hknotin : keyOf r ∉ pre.map Prod.fst ++ post.map Prod.fst :=
      (List.nodup_cons.mp hnodup).1
    have hkpre : keyOf r ∉ pre.map Prod.fst := fun hx =>
      hknotin (List.mem_append.mpr (Or.inl hx))
    have hkpost : keyOf r ∉ post.map Prod.fst := fun hx =>
      hknotin (List.mem_append.mpr (Or.inr hx))
    rw [updateAgg_mem_decomp pre post g0 r hkpre]
    obtain ⟨hf0, hm0, hmm0⟩ :=
      H1 (keyOf r, g0) (List.mem_append.mpr (Or.inr (List.mem_cons_self _ _)))
    dsimp only at hf0 hm0 hmm0
    refine ⟨?_, ?_, ?_⟩
    · intro p hp
      rcases List.mem_append.mp hp with hpre | hmid
      · -- an entry before the updated one
        have hpacc : p ∈ pre ++ (keyOf r, g0) :: post :=
          List.mem_append.mpr (Or.inl hpre)
        obtain ⟨hf, hm, hmm⟩ := H1 p hpacc
        have hpne : (keyOf r == p.1) = false := by
          simp only [beq_eq_false_iff_ne, ne_eq]
          intro he
          exact hkpre (he ▸ List.mem_map_of_mem Prod.fst hpre)
        refine ⟨?_, ?_, ?_⟩
        · rw [List.find?_append, hf]; rfl
        · rw [groupMinutes] at hm ⊢
          rw [List.filter_append, List.filter_cons, hpne]
          simpa using hm
        · rw [groupMemos] at hmm ⊢
          rw [List.filter_append, List.filter_cons, hpne]
          simpa using hmm
      · rcases List.mem_cons.mp hmid with hpeq | hpost
        · -- the updated entry itself
          subst hpeq
          refine ⟨?_, ?_, ?_⟩
          · rw [List.find?_append, hf0]; rfl
          · rw [groupMinutes] at hm0 ⊢
            rw [List.filter_append, List.filter_cons]
            simp only [beq_self_eq_true, if_pos]
            simp [hm0]
          · rw [groupMemos] at hmm0 ⊢
            rw [List.filter_append, List.filter_cons]
            simp only [beq_self_eq_true, if_pos]
            simp [hmm0]
        · -- an entry after the updated one
          have hpacc : p ∈ pre ++ (keyOf r, g0) :: post :=
            List.mem_append.mpr (Or.inr (List.mem_cons_of_mem _ hpost))
          obtain ⟨hf, hm, hmm⟩ := H1 p hpacc
          have hpne : (keyOf r == p.1) = false := by
            simp only [beq_eq_false_iff_ne, ne_eq]
            intro he
            exact hkpost (he ▸ List.mem_map_of_mem Prod.fst hpost)
          refine ⟨?_, ?_, ?_⟩
          · rw [List.find?_append, hf]; rfl
          · rw [groupMinutes] at hm ⊢
            rw [List.filter_append, List.filter_cons, hpne]
            simpa using hm
          · rw [groupMemos] at hmm ⊢
            rw [List.filter_append, List.filter_cons, hpne]
            simpa using hmm
    · simpa using H2
    · intro x hx
      rcases List.mem_append.mp hx with hxr | hxnew
      · obtain ⟨gx, hgx⟩ := H3 x hxr
        rcases List.mem_append.mp hgx with hxpre | hxmid
        · exact ⟨gx, List.mem_append.mpr (Or.inl hxpre)⟩
        · rcases List.mem_cons.mp hxmid with hxeq | hxpost
          · refine ⟨⟨g0.minutes + r.minutes, g0.memos ++ memoPart r, g0.firstRow⟩, ?_⟩
            have : keyOf x = keyOf r := congrArg Prod.fst hxeq
            rw [this]
            exact List.mem_append.mpr (Or.inr (List.mem_cons_self _ _))
          · exact ⟨gx, List.mem_append.mpr (Or.inr (List.mem_cons_of_mem _ hxpost))⟩
      · have hxr : x = r := by simpa using hxnew
        rw [hxr]
        exact ⟨⟨g0.minutes + r.minutes, g0.memos ++ memoPart r, g0.firstRow⟩,
          List.mem_append.mpr (Or.inr (List.mem_cons_self _ _))⟩
  · -- the key is new: a fresh group is appended at the end
    rw [updateAgg_not_mem acc r hk]
    have hnone : rows.find? (fun x => keyOf x == keyOf r) = none := by
      rw [List.find?_eq_none]
      intro x hx hbeq
      have hxe : keyOf x = keyOf r := by simpa using hbeq
      obtain ⟨gx, hgx⟩ := H3 x hx
      exact hk (hxe ▸ List.mem_map_of_mem Prod.fst hgx)
    have hfilnil : rows.filter (fun x => keyOf x == keyOf r) = [] := by
      rw [List.filter_eq_nil_iff]
      intro x hx hbeq
      have hxe : keyOf x = keyOf r := by simpa using hbeq
      obtain ⟨gx, hgx⟩ := H3 x hx
      exact hk (hxe ▸ List.mem_map_of_mem Prod.fst hgx)
    refine ⟨?_, ?_, ?_⟩
    · intro p hp
      rcases List.mem_append.mp hp with hpa | hpn
      · obtain ⟨hf, hm, hmm⟩ := H1 p hpa
        have hpne : (keyOf r == p.1) = false := by
          simp only [beq_eq_false_iff_ne, ne_eq]
          intro he
          exact hk (he ▸ List.mem_map_of_mem Prod.fst hpa)
        refine ⟨?_, ?_, ?_⟩
        · rw [List.find?_append, hf]; rfl
        · rw [groupMinutes] at hm ⊢
          rw [List.filter_append, List.filter_cons, hpne]
          simpa using hm
        · rw [groupMemos] at hmm ⊢
          rw [List.filter_append, List.filter_cons, hpne]
          simpa using hmm
      · have hpe : p = (keyOf r, ⟨r.minutes, memoPart r, r⟩) := by simpa using hpn
        subst hpe
        refine ⟨?_, ?_, ?_⟩
        · rw [List.find?_append, hnone]
          simp
        · rw [groupMinutes, List.filter_append, hfilnil, List.filter_cons]
          simp
        · rw [groupMemos, List.filter_append, hfilnil, List.filter_cons]
          simp
    · rw [List.map_append]
      rw [List.nodup_append]
      refine ⟨H2, by simp, ?_⟩
      intro a ha hb
      simp only [List.map_cons, List.map_nil, List.mem_singleton] at hb
      subst hb
      exact hk ha
    · intro x hx
      rcases List.mem_append.mp hx with hxr | hxnew
      · obtain ⟨gx, hgx⟩ := H3 x hxr
        exact ⟨gx, List.mem_append.mpr (Or.inl hgx)⟩
      · have hxr : x = r := by simpa using hxnew
        rw [hxr]
        exact ⟨⟨r.minutes, memoPart r, r⟩, List.mem_append.mpr (Or.inr (by simp))⟩

theorem aggOk_foldl (rest : List RawRow) :
    ∀ acc rows, AggOk rows acc → AggOk (rows ++ rest) (rest.foldl updateAgg acc) := by
  induction rest with
  | nil => intro acc rows h; simpa using h
  | cons r rest ih =>
    intro acc rows h
    rw [List.foldl_cons]
    have := ih (updateAgg acc r) (rows ++ [r]) (aggOk_step rows acc r h)
    simpa [List.append_assoc] using this

/-- The reduce loop satisfies its invariant. -/
theorem aggOk_aggregate (rows : List RawRow) : AggOk rows (aggregate rows) := by
  have h0 : AggOk [] [] := ⟨by simp, by simp, by simp⟩
  have := aggOk_foldl rows [] [] h0
  simpa [aggregate] using this

/-- Collected memos are exactly the non-empty memos of the key's rows,
in order. -/
theorem groupMemos_eq_filter (rows : List RawRow) (k : AggKey) :
    groupMemos rows k =
      ((rows.filter (fun r => keyOf r == k)).map (·.memo)).filter (fun s => s != "") := by
  rw [groupMemos]
  induction rows.filter (fun r => keyOf r == k) with
  | nil => simp
  | cons r rest ih =>
    by_cases h : r.memo = "" <;> simp [memoPart, h, ih]

/-!  Further helpers shared by the claims. -/

theorem projFields_of_none (d : Lookup) (pid : Option Nat)
    (h : dictGet d pid = none) : projFields d pid = ("", "", "", "") := by
  unfold projFields
  rw [h]

/-- The scan over project_tags can only produce the empty string or one
of the two markers. -/
theorem scanProjectTags_snd_cases (ts : List ProjectTag) :
    (scanProjectTags ts).2 = "" ∨ (scanProjectTags ts).2 = "社内" ∨
      (scanProjectTags ts).2 = "社外" := by
  induction ts with
  | nil => left; rfl
  | cons t rest ih =>
    by_cases h1 : t.tag_name = some "社内"
    · right; left; simp [scanProjectTags, h1]
    · by_cases h2 : t.tag_name = some "社外"
      · right; right; simp [scanProjectTags, h1, h2]
      · simpa [scanProjectTags, h1, h2] using ih

theorem projFields_ptn_cases (d : Lookup) (pid : Option Nat) :
    (projFields d pid).2.2.2 = "" ∨ (projFields d pid).2.2.2 = "社内" ∨
      (projFields d pid).2.2.2 = "社外" := by
  unfold projFields
  cases dictGet d pid with
  | none => left; rfl
  | some p =>
    cases hpt : p.project_tags with
    | none => left; simp [hpt]
    | some l =>
      cases l with
      | nil => left; simp [hpt]
      | cons t ts => simpa [hpt] using scanProjectTags_snd_cases (t :: ts)

/-- Every raw row comes from some workload of the input. -/
theorem mem_explodeAll (wls : List Workload) (d : Lookup) (r : RawRow)
    (h : r ∈ explodeAll wls d) : ∃ wl ∈ wls, r ∈ explodeWorkload d wl := by
  rw [explodeAll, List.mem_flatten] at h
  obtain ⟨l, hl, hr⟩ := h
  rw [List.mem_map] at hl
  obtain ⟨wl, hwl, he⟩ := hl
  exact ⟨wl, hwl, he ▸ hr⟩

/-- Every final row is the formatting of an aggregated group. -/
theorem process_mem (wls : List Workload) (d : Lookup) (f : FinalRow)
    (hf : f ∈ process_workloads_to_csv_data wls d) :
    ∃ p ∈ aggregate (explodeAll wls d), f = finalizeGroup p := by
  rw [process_workloads_to_csv_data, List.mem_map] at hf
  obtain ⟨p, hp, he⟩ := hf
  exact ⟨p, hp, he.symm⟩

/-- Each group's representative row is a member of the raw rows and has
the group's key. -/
theorem aggregate_firstRow_mem (rows : List RawRow) (p : AggKey × GroupData)
    (hp : p ∈ aggregate rows) :
    p.2.firstRow ∈ rows ∧ keyOf p.2.firstRow = p.1 := by
  obtain ⟨H1, _, _⟩ := aggOk_aggregate rows
  obtain ⟨hf, _, _⟩ := H1 p hp
  refine ⟨List.mem_of_find?_eq_some hf, ?_⟩
  have := List.find?_some hf
  simpa using this

/-- A list of rows sharing one minutes value sums to length times that
value. -/
theorem sumMinutesRaw_const (l : List RawRow) (m : Nat)
    (h : ∀ r ∈ l, r.minutes = m) : sumMinutesRaw l = l.length * m := by
  induction l with
  | nil => simp [sumMinutesRaw]
  | cons r rest ih =>
    have hr : r.minutes = m := h r (List.mem_cons_self _ _)
    have hrest := ih (fun x hx => h x (List.mem_cons_of_mem _ hx))
    simp only [sumMinutesRaw, List.map_cons, List.sum_cons] at *
    rw [hr, hrest, List.length_cons, Nat.succ_mul]
    omega

def sumFinalMinutes (rows : List FinalRow) : Nat :=
  (rows.map (·.total_minutes)).sum

theorem sumFinalMinutes_process (wls : List Workload) (d : Lookup) :
    sumFinalMinutes (process_workloads_to_csv_data wls d) =
      sumMinutesRaw (explodeAll wls d) := by
  rw [← sumMinutesAgg_aggregate (explodeAll wls d)]
  rw [process_workloads_to_csv_data, sumFinalMinutes, sumMinutesAgg, List.map_map]
  rfl

/-!  Claims about the Explode stage. -/

/-- Claim C1: for every workload entry with N tags (N at least 1) the
Explode stage emits exactly N flattened rows, each carrying the entry's
full minutes value (minutes are not divided across tags); for every
workload entry with zero tags it emits exactly 1 row whose workload tag
field is the empty string. -/
theorem c1_explode_fanout (d : Lookup) (wl : Workload) :
    (truthyTags wl ≠ [] →
      (explodeWorkload d wl).length = (truthyTags wl).length ∧
      ∀ r ∈ explodeWorkload d wl, r.minutes = wl.minutes.getD 0) ∧
    (truthyTags wl = [] →
      (explodeWorkload d wl).length = 1 ∧
      ∀ r ∈ explodeWorkload d wl,
        r.workload_tag_name = "" ∧ r.minutes = wl.minutes.getD 0) := by
  constructor
  · intro h
    refine ⟨?_, ?_⟩
    · rw [explodeWorkload_length]
      cases hc : truthyTags wl with
      | nil => exact absurd hc h
      | cons t ts => simp
    · intro r hr
      exact (explodeWorkload_mem d wl r hr).2.2.2.2.2.2
  · intro h
    rw [explodeWorkload_nil d wl h]
    refine ⟨rfl, ?_⟩
    intro r hr
    simp only [List.mem_singleton] at hr
    subst hr
    exact ⟨rfl, rfl⟩

def wTagged : Workload :=
  ⟨some "p", none, some "m", some 45, some [⟨some "g1", some "t1"⟩, ⟨some "g2", some "t2"⟩]⟩

def wUntagged : Workload := ⟨some "p", none, some "m", some 45, none⟩

theorem c1_explode_fanout_witness :
    ((explodeWorkload [] wTagged).length = (truthyTags wTagged).length ∧
      ∀ r ∈ explodeWorkload [] wTagged, r.minutes = wTagged.minutes.getD 0) ∧
    ((explodeWorkload [] wUntagged).length = 1 ∧
      ∀ r ∈ explodeWorkload [] wUntagged,
        r.workload_tag_name = "" ∧ r.minutes = wUntagged.minutes.getD 0) :=
  ⟨(c1_explode_fanout [] wTagged).1 (by decide),
   (c1_explode_fanout [] wUntagged).2 (by decide)⟩

/-!  Claim C2.  The spec says the project-tag column holds the
project's tag names deduplicated, sorted and comma-joined; the code
instead stores the single tag name found by the 社内/社外 scan, or the
empty string. -/

/-- The project-tag column as the spec describes it (this definition
follows the spec's words, for comparison with the code). -/
def specProjectTagField (p : Project) : String :=
  String.intercalate ", "
    (sortedSet ((p.project_tags.getD []).map (fun t => t.tag_name.getD "")))

def c2Project : Project :=
  ⟨some 1, some "P", some "C", some [⟨none, some "a"⟩, ⟨none, some "b"⟩]⟩

def c2Workload : Workload := ⟨some "emp", some 1, some "", some 10, none⟩

/-- Claim C2 counterexample: a project whose tags are named a and b
yields an aggregated row whose project-tag field is empty, not the
deduplicated, sorted, comma-joined "a, b" the claim requires. -/
theorem c2_project_tag_counterexample :
    (process_workloads_to_csv_data [c2Workload] [(1, c2Project)]).map
        (·.project_tag_name) = [""] ∧
    specProjectTagField c2Project = "a, b" ∧
    ("" : String) ≠ "a, b" := by decide

/-- Claim C2 (amended): the project-tag field of every flattened row is
the single tag name produced by the first-match 社内/社外 scan of the
resolved project's tag list (empty when the project is absent or no tag
matches), and hence every aggregated output row's project-tag field is
the empty string, 社内, or 社外 - never a comma-joined list of all the
project's tag names. -/
theorem c2_project_tag_amended (d : Lookup) (wl : Workload) (wls : List Workload) :
    (∀ r ∈ explodeWorkload d wl,
      r.project_tag_name = (projFields d wl.project_id).2.2.2) ∧
    (∀ f ∈ process_workloads_to_csv_data wls d,
      f.project_tag_name = "" ∨ f.project_tag_name = "社内" ∨
        f.project_tag_name = "社外") := by
  constructor
  · intro r hr
    exact (explodeWorkload_mem d wl r hr).2.2.2.2.1
  · intro f hf
    obtain ⟨p, hp, he⟩ := process_mem wls d f hf
    have hff : f.project_tag_name = p.2.firstRow.project_tag_name := by
      rw [he]; rfl
    obtain ⟨hmem, _⟩ := aggregate_firstRow_mem (explodeAll wls d) p hp
    obtain ⟨wl0, _, hrm⟩ := mem_explodeAll wls d p.2.firstRow hmem
    have hptn := (explodeWorkload_mem d wl0 p.2.firstRow hrm).2.2.2.2.1
    rw [hff, hptn]
    exact projFields_ptn_cases d wl0.project_id

def c2pOut : Project :=
  ⟨some 2, some "Q", some "QC", some [⟨none, some "x"⟩, ⟨none, some "社外"⟩]⟩

def c2wIn : Workload := ⟨some "e", some 2, some "", some 5, none⟩

def c2rawRow : RawRow := ⟨"e", "社外", "Q", "QC", "", "", "社外", "", 5⟩

def c2finRow : FinalRow := ⟨"e", "社外", "Q", "", "社外", "", 5, mkRat 8 100⟩

theorem c2_project_tag_amended_witness :
    c2rawRow.project_tag_name = (projFields [(2, c2pOut)] c2wIn.project_id).2.2.2 ∧
    (c2finRow.project_tag_name = "" ∨ c2finRow.project_tag_name = "社内" ∨
      c2finRow.project_tag_name = "社外") :=
  ⟨(c2_project_tag_amended [(2, c2pOut)] c2wIn [c2wIn]).1 c2rawRow (by decide),
   (c2_project_tag_amended [(2, c2pOut)] c2wIn [c2wIn]).2 c2finRow (by decide)⟩

/-!  Claim C8: dangling project references. -/

/-- Claim C8: a workload entry whose project_id has no match in the
lookup still produces aggregated output, with empty project name, code,
internal/external classification and project tag, and with its minutes
fully included in the totals (dangling references are tolerated, not
fatal). -/
theorem c8_dangling_project (d : Lookup) (wl : Workload)
    (h : dictGet d wl.project_id = none) :
    (∀ r ∈ explodeWorkload d wl,
      r.project_name = "" ∧ r.project_code = "" ∧
      r.internal_external = "" ∧ r.project_tag_name = "") ∧
    (∀ f ∈ process_workloads_to_csv_data [wl] d,
      f.project_name = "" ∧ f.internal_external = "" ∧ f.project_tag_name = "") ∧
    process_workloads_to_csv_data [wl] d ≠ [] ∧
    sumFinalMinutes (process_workloads_to_csv_data [wl] d) =
      (max 1 (truthyTags wl).length) * (wl.minutes.getD 0) := by
  have hpf : projFields d wl.project_id = ("", "", "", "") :=
    projFields_of_none d wl.project_id h
  have hraw : ∀ r ∈ explodeWorkload d wl,
      r.project_name = "" ∧ r.project_code = "" ∧
      r.internal_external = "" ∧ r.project_tag_name = "" := by
    intro r hr
    obtain ⟨_, hie, hpn, hpc, hptn, _, _⟩ := explodeWorkload_mem d wl r hr
    rw [hpf] at hie hpn hpc hptn
    exact ⟨hpn, hpc, hie, hptn⟩
  have hall : explodeAll [wl] d = explodeWorkload d wl := by
    simp [explodeAll]
  refine ⟨hraw, ?_, ?_, ?_⟩
  · intro f hf
    obtain ⟨p, hp, he⟩ := process_mem [wl] d f hf
    obtain ⟨hmem, _⟩ := aggregate_firstRow_mem (explodeAll [wl] d) p hp
    rw [hall] at hmem
    obtain ⟨hpn, _, hie, hptn⟩ := hraw p.2.firstRow hmem
    rw [he]
    exact ⟨hpn, hie, hptn⟩
  · have hne : explodeWorkload d wl ≠ [] := by
      intro hnil
      have := explodeWorkload_length d wl
      rw [hnil] at this
      simp at this
      omega
    have := aggregate_ne_nil (explodeAll [wl] d) (by rw [hall]; exact hne)
    rw [process_workloads_to_csv_data]
    intro hmapnil
    exact this (List.map_eq_nil_iff.mp hmapnil)
  · rw [sumFinalMinutes_process, hall]
    have hconst : ∀ r ∈ explodeWorkload d wl, r.minutes = wl.minutes.getD 0 :=
      fun r hr => (explodeWorkload_mem d wl r hr).2.2.2.2.2.2
    rw [sumMinutesRaw_const (explodeWorkload d wl) (wl.minutes.getD 0) hconst]
    rw [explodeWorkload_length]

def c8Workload : Workload :=
  ⟨some "p", some 99, some "m", some 30,
   some [⟨some "g", some "t1"⟩, ⟨some "g", some "t2"⟩]⟩

theorem c8_dangling_project_witness :
    (∀ r ∈ explodeWorkload [(1, c2Project)] c8Workload,
      r.project_name = "" ∧ r.project_code = "" ∧
      r.internal_external = "" ∧ r.project_tag_name = "") ∧
    (∀ f ∈ process_workloads_to_csv_data [c8Workload] [(1, c2Project)],
      f.project_name = "" ∧ f.internal_external = "" ∧ f.project_tag_name = "") ∧
    process_workloads_to_csv_data [c8Workload] [(1, c2Project)] ≠ [] ∧
    sumFinalMinutes (process_workloads_to_csv_data [c8Workload] [(1, c2Project)]) =
      (max 1 (truthyTags c8Workload).length) * (c8Workload.minutes.getD 0) :=
  c8_dangling_project [(1, c2Project)] c8Workload (by decide)

/-!  Claim C9.  The spec says malformed or missing fields in the join
layer never raise; the code raises a KeyError in create_project_lookup
when a project record has no id. -/

def c9Project : Project := ⟨none, some "n", some "c", none⟩

/-- Claim C9 counterexample: create_project_lookup applied to a project
record with no id raises (a KeyError in the source), contradicting the
claim that a missing field always degrades to a default without an
exception. -/
theorem c9_missing_id_counterexample :
    create_project_lookup [c9Project] = Except.error "KeyError: id" := by rfl

/-- Claim C9 (amended): in process_workloads_to_csv_data every missing
field degrades to a default (empty string, zero minutes) and processing
continues, and create_project_lookup tolerates a missing name, code or
project_tags, but a project record missing its id raises a KeyError in
create_project_lookup. -/
theorem c9_defensive_defaults_amended (ps : List Project) (d : Lookup) :
    ((∀ p ∈ ps, p.id ≠ none) → exceptIsOk (create_project_lookup ps) = true) ∧
    ((∃ p ∈ ps, p.id = none) → exceptIsOk (create_project_lookup ps) = false) ∧
    explodeWorkload d ⟨none, none, none, none, none⟩ =
      [{ person_name := "", internal_external := "", project_name := "",
         project_code := "", workload_tag_group_name := "",
         workload_tag_name := "", project_tag_name := "", memo := "",
         minutes := 0 }] := by
  have hok : ∀ (qs : List Project) (acc : Lookup), (∀ p ∈ qs, p.id ≠ none) →
      exceptIsOk (create_project_lookup_go acc qs) = true := by
    intro qs
    induction qs with
    | nil => intro acc _; rfl
    | cons q rest ih =>
      intro acc hq
      cases hid : q.id with
      | none => exact absurd hid (hq q (List.mem_cons_self _ _))
      | some i =>
        rw [create_project_lookup_go, hid]
        exact ih (setProj acc i q) (fun p hp => hq p (List.mem_cons_of_mem _ hp))
  have herr : ∀ (qs : List Project) (acc : Lookup), (∃ p ∈ qs, p.id = none) →
      exceptIsOk (create_project_lookup_go acc qs) = false := by
    intro qs
    induction qs with
    | nil => intro acc hex; simp at hex
    | cons q rest ih =>
      intro acc hex
      cases hid : q.id with
      | none => rw [create_project_lookup_go, hid]; rfl
      | some i =>
        rw [create_project_lookup_go, hid]
        obtain ⟨p, hpmem, hpid⟩ := hex
        rcases List.mem_cons.mp hpmem with hpe | hprest
        · rw [hpe] at hpid; rw [hpid] at hid; exact absurd hid (by simp)
        · exact ih (setProj acc i q) ⟨p, hprest, hpid⟩
  exact ⟨hok ps [], herr ps [], rfl⟩

def c9GoodProject : Project := ⟨some 7, none, none, none⟩

theorem c9_defensive_defaults_witness :
    exceptIsOk (create_project_lookup [c9GoodProject]) = true ∧
    exceptIsOk (create_project_lookup [c9GoodProject, c9Project]) = false ∧
    explodeWorkload [] ⟨none, none, none, none, none⟩ =
      [{ person_name := "", internal_external := "", project_name := "",
         project_code := "", workload_tag_group_name := "",
         workload_tag_name := "", project_tag_name := "", memo := "",
         minutes := 0 }] :=
  ⟨(c9_defensive_defaults_amended [c9GoodProject] []).1 (by decide),
   (c9_defensive_defaults_amended [c9GoodProject, c9Project] []).2.1 (by decide),
   (c9_defensive_defaults_amended [] []).2.2⟩

/-!  Claim C3: the Reduce stage. -/

def c3Project : Project := ⟨some 5, some "Proj", some "PC", some []⟩

def c3w1 : Workload :=
  ⟨some "alice", some 5, some "x", some 45, some [⟨some "G", some "T"⟩]⟩

def c3w2 : Workload :=
  ⟨some "alice", some 5, some "y", some 15, some [⟨some "G", some "T"⟩]⟩

/-- Claim C3: the Reduce stage groups flattened rows by the key
(person_name, project_name, workload_tag_name), sums minutes per group,
and takes the descriptive fields (internal_external, project_tag_name,
project_code) from the first-seen row of each group - the stored
representative row is the first row of the group, so later rows never
override it.  Two workload entries with the same person, project and
tag, minutes 45 and 15 and memos x and y, yield a single aggregated row
with 60 total minutes, 1.0 total hours and memo "x, y". -/
theorem c3_reduce_first_seen (wls : List Workload) (d : Lookup) :
    (∀ p ∈ aggregate (explodeAll wls d),
      (explodeAll wls d).find? (fun r => keyOf r == p.1) = some p.2.firstRow ∧
      p.2.minutes = groupMinutes (explodeAll wls d) p.1) ∧
    (∀ f ∈ process_workloads_to_csv_data wls d,
      ∃ p ∈ aggregate (explodeAll wls d),
        f.person_name = p.2.firstRow.person_name ∧
        f.internal_external = p.2.firstRow.internal_external ∧
        f.project_name = p.2.firstRow.project_name ∧
        f.project_tag_name = p.2.firstRow.project_tag_name ∧
        f.total_minutes = p.2.minutes) ∧
    process_workloads_to_csv_data [c3w1, c3w2] [(5, c3Project)] =
      [{ person_name := "alice", internal_external := "",
         project_name := "Proj", workload_tag_name := "T",
         project_tag_name := "", memo := "x, y", total_minutes := 60,
         total_hours := 1 }] := by
  refine ⟨?_, ?_, by decide⟩
  · intro p hp
    obtain ⟨H1, _, _⟩ := aggOk_aggregate (explodeAll wls d)
    obtain ⟨hf, hm, _⟩ := H1 p hp
    exact ⟨hf, hm⟩
  · intro f hf
    obtain ⟨p, hp, he⟩ := process_mem wls d f hf
    exact ⟨p, hp, by rw [he]; exact rfl, by rw [he]; exact rfl,
      by rw [he]; exact rfl, by rw [he]; exact rfl, by rw [he]; exact rfl⟩

def c3group : AggKey × GroupData :=
  (("alice", "Proj", "T"),
   ⟨60, ["x", "y"], ⟨"alice", "", "Proj", "PC", "G", "T", "", "x", 45⟩⟩)

def c3final : FinalRow :=
  ⟨"alice", "", "Proj", "T", "", "x, y", 60, 1⟩

theorem c3_reduce_first_seen_witness :
    ((explodeAll [c3w1, c3w2] [(5, c3Project)]).find?
        (fun r => keyOf r == c3group.1) = some c3group.2.firstRow ∧
      c3group.2.minutes = groupMinutes (explodeAll [c3w1, c3w2] [(5, c3Project)]) c3group.1) ∧
    (∃ p ∈ aggregate (explodeAll [c3w1, c3w2] [(5, c3Project)]),
      c3final.person_name = p.2.firstRow.person_name ∧
      c3final.internal_external = p.2.firstRow.internal_external ∧
      c3final.project_name = p.2.firstRow.project_name ∧
      c3final.project_tag_name = p.2.firstRow.project_tag_name ∧
      c3final.total_minutes = p.2.minutes) :=
  ⟨(c3_reduce_first_seen [c3w1, c3w2] [(5, c3Project)]).1 c3group (by decide),
   (c3_reduce_first_seen [c3w1, c3w2] [(5, c3Project)]).2.1 c3final (by decide)⟩

/-!  Claim C4: memo concatenation. -/

def c4wb : Workload := ⟨some "a", none, some "b", some 1, none⟩
def c4wa1 : Workload := ⟨some "a", none, some "a", some 2, none⟩
def c4wa2 : Workload := ⟨some "a", none, some "a", some 3, none⟩
def c4we : Workload := ⟨some "a", none, some "", some 4, none⟩

/-- Claim C4: for every aggregated group, the collected memos are the
group's non-empty memos in row order, and the output memo field joins
them deduplicated and sorted with ", ".  Given memos b, a, a and the
empty string in one group, the output memo field is exactly "a, b". -/
theorem c4_memo_concat (wls : List Workload) (d : Lookup) :
    (∀ p ∈ aggregate (explodeAll wls d),
      p.2.memos =
        (((explodeAll wls d).filter (fun r => keyOf r == p.1)).map
          (·.memo)).filter (fun s => s != "")) ∧
    (∀ f ∈ process_workloads_to_csv_data wls d,
      ∃ p ∈ aggregate (explodeAll wls d),
        f.memo = String.intercalate ", " (sortedSet p.2.memos)) ∧
    (process_workloads_to_csv_data [c4wb, c4wa1, c4wa2, c4we] []).map
        (·.memo) = ["a, b"] := by
  refine ⟨?_, ?_, by decide⟩
  · intro p hp
    obtain ⟨H1, _, _⟩ := aggOk_aggregate (explodeAll wls d)
    obtain ⟨_, _, hmm⟩ := H1 p hp
    rw [hmm]
    exact groupMemos_eq_filter (explodeAll wls d) p.1
  · intro f hf
    obtain ⟨p, hp, he⟩ := process_mem wls d f hf
    exact ⟨p, hp, by rw [he]; exact rfl⟩

def c4group : AggKey × GroupData :=
  (("a", "", ""), ⟨10, ["b", "a", "a"], ⟨"a", "", "", "", "", "", "", "b", 1⟩⟩)

def c4final : FinalRow := ⟨"a", "", "", "", "", "a, b", 10, mkRat 17 100⟩

theorem c4_memo_concat_witness :
    (c4group.2.memos =
      (((explodeAll [c4wb, c4wa1, c4wa2, c4we] []).filter
        (fun r => keyOf r == c4group.1)).map (·.memo)).filter (fun s => s != "")) ∧
    (∃ p ∈ aggregate (explodeAll [c4wb, c4wa1, c4wa2, c4we] []),
      c4final.memo = String.intercalate ", " (sortedSet p.2.memos)) :=
  ⟨(c4_memo_concat [c4wb, c4wa1, c4wa2, c4we] []).1 c4group (by decide),
   (c4_memo_concat [c4wb, c4wa1, c4wa2, c4we] []).2.1 c4final (by decide)⟩

/-!  Pagination lemmas. -/

/-- The trace property of the fetch loop after the first page: each
requested offset is the previous one advanced by the records actually
returned, every page but the last failed the stop test, and the last
one passed it. -/
def chainStop {α : Type} (api : Nat → Page α) (limit tc : Nat) : List Nat → Prop
  | [] => False
  | [o] => (api o).records.length < limit ∨ tc ≤ o + (api o).records.length
  | o :: o2 :: rest =>
    ¬((api o).records.length < limit ∨ tc ≤ o + (api o).records.length) ∧
    o2 = o + (api o).records.length ∧ chainStop api limit tc (o2 :: rest)

theorem fetchRest_chain {α : Type} (api : Nat → Page α) (limit tc : Nat) :
    ∀ fuel offset recs offs,
      fetchRest api limit tc fuel offset = some (recs, offs) →
      offs.head? = some offset ∧
      recs = (offs.map (fun o => (api o).records)).flatten ∧
      chainStop api limit tc offs := by
  intro fuel
  induction fuel with
  | zero => intro offset recs offs h; simp [fetchRest] at h
  | succ n ih =>
    intro offset recs offs h
    simp only [fetchRest] at h
    by_cases hc : (api offset).records.length < limit ∨
        tc ≤ offset + (api offset).records.length
    · rw [if_pos hc] at h
      simp only [Option.some.injEq, Prod.mk.injEq] at h
      obtain ⟨h1, h2⟩ := h
      subst h1; subst h2
      refine ⟨rfl, by simp, ?_⟩
      exact hc
    · rw [if_neg hc] at h
      cases hm : fetchRest api limit tc n (offset + (api offset).records.length) with
      | none => rw [hm] at h; simp at h
      | some pr =>
        obtain ⟨recs2, offs2⟩ := pr
        rw [hm] at h
        simp only [Option.some.injEq, Prod.mk.injEq] at h
        obtain ⟨h1, h2⟩ := h
        subst h1; subst h2
        obtain ⟨hhead, hjoin, hchain⟩ := ih _ _ _ hm
        cases offs2 with
        | nil => simp at hhead
        | cons o2 rest =>
          simp only [List.head?_cons, Option.some.injEq] at hhead
          refine ⟨rfl, ?_, ?_⟩
          · simp [hjoin]
          · exact ⟨hc, hhead, hchain⟩

theorem fetchRest_some {α : Type} (api : Nat → Page α) (limit tc : Nat) :
    ∀ fuel offset, offset < tc → tc ≤ offset + fuel * limit →
      ∃ out, fetchRest api limit tc fuel offset = some out := by
  intro fuel
  induction fuel with
  | zero => intro offset h1 h2; simp at h2; omega
  | succ n ih =>
    intro offset h1 h2
    by_cases hc : (api offset).records.length < limit ∨
        tc ≤ offset + (api offset).records.length
    · exact ⟨_, by simp only [fetchRest]; rw [if_pos hc]⟩
    · push_neg at hc
      obtain ⟨hlen, hofftc⟩ := hc
      have h2n : tc ≤ (offset + (api offset).records.length) + n * limit := by
        have hs : (n + 1) * limit = n * limit + limit := Nat.succ_mul n limit
        omega
      obtain ⟨⟨recs2, offs2⟩, hout⟩ :=
        ih (offset + (api offset).records.length) hofftc h2n
      refine ⟨((api offset).records ++ recs2, offset :: offs2), ?_⟩
      simp only [fetchRest]
      rw [if_neg (by push_neg; exact ⟨hlen, hofftc⟩), hout]

theorem fetchRest_len {α : Type} (api : Nat → Page α) (limit tc : Nat) :
    ∀ fuel offset recs offs, offset < tc →
      fetchRest api limit tc fuel offset = some (recs, offs) →
      1 ≤ offs.length ∧ (offs.length - 1) * limit + offset < tc := by
  intro fuel
  induction fuel with
  | zero => intro offset recs offs h1 h; simp [fetchRest] at h
  | succ n ih =>
    intro offset recs offs h1 h
    simp only [fetchRest] at h
    by_cases hc : (api offset).records.length < limit ∨
        tc ≤ offset + (api offset).records.length
    · rw [if_pos hc] at h
      simp only [Option.some.injEq, Prod.mk.injEq] at h
      obtain ⟨_, h2⟩ := h
      subst h2
      simpa using h1
    · rw [if_neg hc] at h
      push_neg at hc
      obtain ⟨hlen, hofftc⟩ := hc
      cases hm : fetchRest api limit tc n (offset + (api offset).records.length) with
      | none => rw [hm] at h; simp at h
      | some pr =>
        obtain ⟨recs2, offs2⟩ := pr
        rw [hm] at h
        simp only [Option.some.injEq, Prod.mk.injEq] at h
        obtain ⟨_, h2⟩ := h
        subst h2
        obtain ⟨hL1, hL2⟩ := ih _ _ _ hofftc hm
        cases hoffs2 : offs2 with
        | nil => rw [hoffs2] at hL1; simp at hL1
        | cons o2 rest =>
          rw [hoffs2] at hL2
          simp only [List.length_cons] at hL2 ⊢
          constructor
          · omega
          · simp only [Nat.add_sub_cancel] at hL2 ⊢
            have hs : (rest.length + 1) * limit = rest.length * limit + limit :=
              Nat.succ_mul _ _
            omega

/-- A well-behaved API serves, at each offset, exactly the remaining
records up to the requested limit, with no duplicates or gaps. -/
def WellBehaved {α : Type} (api : Nat → Page α) (limit tc : Nat) : Prop :=
  ∀ o, ((api o).records).length = min limit (tc - o)

theorem fetchRest_wellBehaved {α : Type} (api : Nat → Page α) (limit tc : Nat)
    (hw : WellBehaved api limit tc) :
    ∀ fuel offset recs offs, offset < tc →
      fetchRest api limit tc fuel offset = some (recs, offs) →
      offset + recs.length = tc := by
  intro fuel
  induction fuel with
  | zero => intro offset recs offs h1 h; simp [fetchRest] at h
  | succ n ih =>
    intro offset recs offs h1 h
    simp only [fetchRest] at h
    have hlen := hw offset
    by_cases hc : (api offset).records.length < limit ∨
        tc ≤ offset + (api offset).records.length
    · rw [if_pos hc] at h
      simp only [Option.some.injEq, Prod.mk.injEq] at h
      obtain ⟨h2, _⟩ := h
      subst h2
      rcases hc with hc1 | hc2
      · have : min limit (tc - offset) < limit := hlen ▸ hc1
        omega
      · omega
    · rw [if_neg hc] at h
      push_neg at hc
      obtain ⟨hlim, hofftc⟩ := hc
      cases hm : fetchRest api limit tc n (offset + (api offset).records.length) with
      | none => rw [hm] at h; simp at h
      | some pr =>
        obtain ⟨recs2, offs2⟩ := pr
        rw [hm] at h
        simp only [Option.some.injEq, Prod.mk.injEq] at h
        obtain ⟨h2, _⟩ := h
        subst h2
        have := ih _ _ _ hofftc hm
        simp only [List.length_append]
        omega

/-- Ceiling division, as the claims state the iteration bound. -/
def ceilDiv (a b : Nat) : Nat := (a + b - 1) / b

theorem le_ceilDiv_mul (a b : Nat) (h : 0 < b) : a ≤ ceilDiv a b * b := by
  unfold ceilDiv
  have hd := Nat.div_add_mod (a + b - 1) b
  have hr : (a + b - 1) % b < b := Nat.mod_lt _ h
  have hc : b * ((a + b - 1) / b) = ((a + b - 1) / b) * b := Nat.mul_comm _ _
  omega

/-- Claim C5: the paginated fetch starts at offset 0, captures
total_count from the first page's metadata, returns the empty sequence
immediately when total_count is 0 with no call beyond the first, and
otherwise accumulates the pages in order along a trace in which each
offset advances by the number of records actually returned and that
ends at the first page that is shorter than the limit or reaches
total_count. -/
theorem c5_pagination_algorithm {α : Type} (api : Nat → Page α)
    (limit fuel : Nat) (recs : List α) (offs : List Nat) :
    ((api 0).totalCount = 0 → fetchAllPaginated api limit fuel = some ([], [0])) ∧
    (fetchAllPaginated api limit fuel = some (recs, offs) →
      offs.head? = some 0 ∧
      ((api 0).totalCount = 0 → recs = [] ∧ offs = [0]) ∧
      ((api 0).totalCount ≠ 0 →
        recs = (offs.map (fun o => (api o).records)).flatten ∧
        chainStop api limit (api 0).totalCount offs)) := by
  constructor
  · intro h0
    simp only [fetchAllPaginated]
    rw [if_pos h0]
  · intro h
    by_cases h0 : (api 0).totalCount = 0
    · simp only [fetchAllPaginated] at h
      rw [if_pos h0] at h
      simp only [Option.some.injEq, Prod.mk.injEq] at h
      obtain ⟨h1, h2⟩ := h
      subst h1; subst h2
      exact ⟨rfl, fun _ => ⟨rfl, rfl⟩, fun hne => absurd h0 hne⟩
    · simp only [fetchAllPaginated] at h
      rw [if_neg h0] at h
      by_cases hc : (api 0).records.length < limit ∨
          (api 0).totalCount ≤ (api 0).records.length
      · rw [if_pos hc] at h
        simp only [Option.some.injEq, Prod.mk.injEq] at h
        obtain ⟨h1, h2⟩ := h
        subst h1; subst h2
        refine ⟨rfl, fun hz => absurd hz h0, fun _ => ⟨by simp, ?_⟩⟩
        show (api 0).records.length < limit ∨
          (api 0).totalCount ≤ 0 + (api 0).records.length
        simpa using hc
      · rw [if_neg hc] at h
        cases hm : fetchRest api limit (api 0).totalCount fuel
            (api 0).records.length with
        | none => rw [hm] at h; simp at h
        | some pr =>
          obtain ⟨recs2, offs2⟩ := pr
          rw [hm] at h
          simp only [Option.some.injEq, Prod.mk.injEq] at h
          obtain ⟨h1, h2⟩ := h
          subst h1; subst h2
          obtain ⟨hhead, hjoin, hchain⟩ :=
            fetchRest_chain api limit (api 0).totalCount fuel _ _ _ hm
          cases offs2 with
          | nil => simp at hhead
          | cons o2 rest =>
            simp only [List.head?_cons, Option.some.injEq] at hhead
            refine ⟨rfl, fun hz => absurd hz h0, fun _ => ⟨by simp [hjoin], ?_⟩⟩
            refine ⟨?_, ?_, hchain⟩
            · show ¬((api 0).records.length < limit ∨
                (api 0).totalCount ≤ 0 + (api 0).records.length)
              simpa using hc
            · simpa using hhead

def apiZero : Nat → Page Nat := fun _ => ⟨[], 0⟩

def api3 : Nat → Page Nat := fun o => ⟨((List.range 3).drop o).take 2, 3⟩

theorem c5_pagination_algorithm_witness :
    fetchAllPaginated apiZero 100 5 = some ([], [0]) ∧
    (([0, 2] : List Nat).head? = some 0 ∧
      ((api3 0).totalCount = 0 → ([0, 1, 2] : List Nat) = [] ∧ ([0, 2] : List Nat) = [0]) ∧
      ((api3 0).totalCount ≠ 0 →
        ([0, 1, 2] : List Nat) = (([0, 2] : List Nat).map (fun o => (api3 o).records)).flatten ∧
        chainStop api3 2 (api3 0).totalCount [0, 2])) :=
  ⟨(c5_pagination_algorithm apiZero 100 5 [] [0]).1 (by decide),
   (c5_pagination_algorithm api3 2 5 [0, 1, 2] [0, 2]).2 (by decide)⟩

/-- Claim C6: with total_count and limit at least 1 and enough fuel,
the fetch loop returns, makes at most ceil(total_count / limit) + 1
network calls whatever page sizes the API returns, and accumulates
exactly total_count records whenever the API is well-behaved. -/
theorem c6_pagination_bound {α : Type} (api : Nat → Page α)
    (limit fuel tc : Nat) (hl : 1 ≤ limit) (htc1 : 1 ≤ tc)
    (htc : (api 0).totalCount = tc) (hfuel : ceilDiv tc limit ≤ fuel) :
    ∃ recs offs, fetchAllPaginated api limit fuel = some (recs, offs) ∧
      offs.length ≤ ceilDiv tc limit + 1 ∧
      (WellBehaved api limit tc → recs.length = tc) := by
  simp only [fetchAllPaginated, htc]
  rw [if_neg (by omega)]
  by_cases hc : (api 0).records.length < limit ∨ tc ≤ (api 0).records.length
  · rw [if_pos hc]
    refine ⟨(api 0).records, [0], rfl, by simp, ?_⟩
    intro hw
    have hlen := hw 0
    simp only [Nat.sub_zero] at hlen
    omega
  · rw [if_neg hc]
    push_neg at hc
    obtain ⟨hlim, hlt⟩ := hc
    have hbound : tc ≤ (api 0).records.length + fuel * limit := by
      have h1 : tc ≤ ceilDiv tc limit * limit := le_ceilDiv_mul tc limit (by omega)
      have h2 : ceilDiv tc limit * limit ≤ fuel * limit :=
        Nat.mul_le_mul_right _ hfuel
      omega
    obtain ⟨⟨recs2, offs2⟩, hm⟩ :=
      fetchRest_some api limit tc fuel (api 0).records.length hlt hbound
    rw [hm]
    refine ⟨_, _, rfl, ?_, ?_⟩
    · obtain ⟨hL1, hL2⟩ := fetchRest_len api limit tc fuel _ _ _ hlt hm
      simp only [List.length_cons]
      rcases hLc : offs2.length with _ | m
      · omega
      · rw [hLc] at hL2
        simp only [Nat.add_sub_cancel] at hL2
        have hs : (m + 1) * limit = m * limit + limit := Nat.succ_mul _ _
        have hle : (m + 1) * limit ≤ tc - 1 := by omega
        have hdiv : m + 1 ≤ (tc - 1) / limit :=
          (Nat.le_div_iff_mul_le (by omega)).mpr hle
        have hmono : (tc - 1) / limit ≤ ceilDiv tc limit := by
          unfold ceilDiv
          exact Nat.div_le_div_right (by omega)
        omega
    · intro hw
      have hwb := fetchRest_wellBehaved api limit tc hw fuel _ _ _ hlt hm
      simp only [List.length_append]
      omega

theorem c6_pagination_bound_witness :
    ∃ recs offs, fetchAllPaginated api3 2 2 = some (recs, offs) ∧
      offs.length ≤ ceilDiv 3 2 + 1 ∧
      (WellBehaved api3 2 3 → recs.length = 3) :=
  c6_pagination_bound api3 2 2 3 (by decide) (by decide) (by decide) (by decide)

/-- Claim C7: when the wrapped request returns HTTP 401 with a valid
looking credential and a refresh token is available, the credential is
refreshed exactly once and the request retried exactly once; a failure
of the retried request is raised without further retries, and a failed
refresh re-raises the original HTTP error. -/
theorem c7_call_freee_api_retry (t rt body : String) (expiresAt now : Nat)
    (doRequest : String → ReqOutcome)
    (doRefresh : String → Option (String × String))
    (hrt : rt ≠ "") (hfresh : ¬(0 < expiresAt ∧ now ≥ expiresAt))
    (h401 : doRequest t = ReqOutcome.httpError 401 body) :
    (doRefresh rt = none →
      call_freee_api (some t) (some rt) expiresAt now doRequest doRefresh =
        (Except.error (CallError.http 401), ⟨1, 1⟩)) ∧
    (∀ na nr, doRefresh rt = some (na, nr) →
      (call_freee_api (some t) (some rt) expiresAt now doRequest doRefresh).2 =
        ⟨2, 1⟩ ∧
      (call_freee_api (some t) (some rt) expiresAt now doRequest doRefresh).1 =
        (match doRequest na with
         | ReqOutcome.ok b => Except.ok b
         | ReqOutcome.httpError s2 _ => Except.error (CallError.http s2)
         | ReqOutcome.reqError => Except.error CallError.request)) := by
  have hpre : ¬(some t = none ∨ (0 < expiresAt ∧ now ≥ expiresAt)) := by
    rintro (h | h)
    · exact Option.noConfusion h
    · exact hfresh h
  constructor
  · intro hre
    simp only [call_freee_api]
    rw [if_neg hpre]
    simp [h401, truthy, hrt, hre]
  · intro na nr hre
    simp only [call_freee_api]
    rw [if_neg hpre]
    cases hna : doRequest na with
    | ok b => simp [h401, truthy, hrt, hre, hna]
    | httpError s2 b2 => simp [h401, truthy, hrt, hre, hna]
    | reqError => simp [h401, truthy, hrt, hre, hna]

def c7Request : String → ReqOutcome := fun tok =>
  if tok = "fresh" then ReqOutcome.httpError 500 "server error"
  else ReqOutcome.httpError 401 "unauthorized"

theorem c7_call_freee_api_retry_witness :
    (call_freee_api (some "stale") (some "refresh") 0 0 c7Request
        (fun _ => some ("fresh", "refresh2"))).2 = ⟨2, 1⟩ ∧
    (call_freee_api (some "stale") (some "refresh") 0 0 c7Request
        (fun _ => some ("fresh", "refresh2"))).1 =
      (match c7Request "fresh" with
       | ReqOutcome.ok b => Except.ok b
       | ReqOutcome.httpError s2 _ => Except.error (CallError.http s2)
       | ReqOutcome.reqError => Except.error CallError.request) :=
  (c7_call_freee_api_retry "stale" "refresh" "unauthorized" 0 0 c7Request
      (fun _ => some ("fresh", "refresh2")) (by decide) (by decide) (by decide)).2
    "fresh" "refresh2" rfl

/-- Claim C10: the token refresh returns a pair on success, the pair
(None, None) on secret-read failure, missing refresh token, request
failure or a response without both new tokens, and a bare None exactly
on the unexpected-exception paths reached while processing a received
response. -/
theorem c10_refresh_result_shape (s : SecretData) (tk : TokenResponse)
    (putOk : Bool) (po : PostOutcome) :
    (refresh_freee_tokens_with_secrets_manager none po putOk =
      RefreshResult.pair none none) ∧
    (truthy s.refresh_token = false →
      refresh_freee_tokens_with_secrets_manager (some s) po putOk =
        RefreshResult.pair none none) ∧
    (truthy s.refresh_token = true →
      refresh_freee_tokens_with_secrets_manager (some s)
        PostOutcome.requestError putOk = RefreshResult.pair none none) ∧
    (truthy s.refresh_token = true →
      ¬(truthy tk.access_token ∧ truthy tk.refresh_token) →
      refresh_freee_tokens_with_secrets_manager (some s)
        (PostOutcome.ok tk) putOk = RefreshResult.pair none none) ∧
    (truthy s.refresh_token = true → truthy tk.access_token →
      truthy tk.refresh_token →
      refresh_freee_tokens_with_secrets_manager (some s)
        (PostOutcome.ok tk) true =
        RefreshResult.pair tk.access_token tk.refresh_token) ∧
    (refresh_freee_tokens_with_secrets_manager (some s) po putOk =
        RefreshResult.bareNone ↔
      truthy s.refresh_token = true ∧
        (po = PostOutcome.otherError ∨
          ∃ tk2, po = PostOutcome.ok tk2 ∧ truthy tk2.access_token ∧
            truthy tk2.refresh_token ∧ putOk = false)) := by
  refine ⟨rfl, ?_, ?_, ?_, ?_, ?_⟩
  · intro hf
    simp [refresh_freee_tokens_with_secrets_manager, hf]
  · intro ht
    simp [refresh_freee_tokens_with_secrets_manager, ht]
  · intro ht hnot
    simp only [refresh_freee_tokens_with_secrets_manager, ht]
    rw [if_neg (by simp)]
    rw [if_neg hnot]
  · intro ht ha hr
    simp only [refresh_freee_tokens_with_secrets_manager, ht]
    rw [if_neg (by simp)]
    rw [if_pos ⟨ha, hr⟩]
    rfl
  · by_cases ht : truthy s.refresh_token
    · cases po with
      | requestError => simp [refresh_freee_tokens_with_secrets_manager, ht]
      | otherError => simp [refresh_freee_tokens_with_secrets_manager, ht]
      | ok tk2 =>
        by_cases htk : truthy tk2.access_token ∧ truthy tk2.refresh_token
        · cases putOk with
          | true =>
            simp only [refresh_freee_tokens_with_secrets_manager, ht]
            rw [if_neg (by simp), if_pos htk]
            simp [htk]
          | false =>
            simp only [refresh_freee_tokens_with_secrets_manager, ht]
            rw [if_neg (by simp), if_pos htk]
            simp [ht, htk]
        · simp only [refresh_freee_tokens_with_secrets_manager, ht]
          rw [if_neg (by simp), if_neg htk]
          simp only [not_and] at htk
          constructor
          · intro hcon; exact absurd hcon (by simp)
          · rintro ⟨-, hor | ⟨tk3, htk3, ha3, hr3, -⟩⟩
            · exact absurd hor (by simp)
            · obtain rfl : tk2 = tk3 := by
                injection htk3
              exact absurd hr3 (htk ha3)
    · have ht2 : truthy s.refresh_token = false := by
        cases h : truthy s.refresh_token
        · rfl
        · exact absurd h ht
      simp [refresh_freee_tokens_with_secrets_manager, ht2]

def c10Secret : SecretData := ⟨some "r"⟩

def c10Tokens : TokenResponse := ⟨some "a", some "b"⟩

theorem c10_refresh_result_shape_witness :
    refresh_freee_tokens_with_secrets_manager (some c10Secret)
      PostOutcome.requestError true = RefreshResult.pair none none ∧
    refresh_freee_tokens_with_secrets_manager (some c10Secret)
      (PostOutcome.ok c10Tokens) true =
      RefreshResult.pair c10Tokens.access_token c10Tokens.refresh_token ∧
    refresh_freee_tokens_with_secrets_manager (some c10Secret)
      (PostOutcome.ok c10Tokens) false = RefreshResult.bareNone :=
  ⟨(c10_refresh_result_shape c10Secret c10Tokens true
      PostOutcome.requestError).2.2.1 (by decide),
   (c10_refresh_result_shape c10Secret c10Tokens true
      (PostOutcome.ok c10Tokens)).2.2.2.2.1 (by decide) (by decide) (by decide),
   (c10_refresh_result_shape c10Secret c10Tokens false
      (PostOutcome.ok c10Tokens)).2.2.2.2.2.mpr
     ⟨by decide, Or.inr ⟨c10Tokens, rfl, by decide, by decide, rfl⟩⟩⟩
